import Mathlib

/-!
# MongooseQueue — shallow embedding and verification

A shallow embedding of the MongooseQueue library (`lib/mongoose-queue.js`,
`schemas/job-schema.js`).  The persistent store is a `List Job`; MongoDB's
atomic `findOneAndUpdate` is modelled by `claimFirst` (update the first
list element matching a predicate), with the `sort: {createdAt: 1}` option
modelled by first computing the minimal `createdAt` among matching jobs and
then updating the first job attaining it (MongoDB picks one document that
is minimal under the sort order; ties are broken by a deterministic
store-level order, here list position).  Timestamps are `Nat`
milliseconds.  `Date.now()` at a call site is a `now : Nat` parameter.

Each public operation of the queue is one atomic store round-trip, so a
set of concurrent calls is equivalent to executing them in some sequential
order; `getRace` realises that serialisation for a list of workers.
-/

/-- One persisted queue entry, after `schemas/job-schema.js`.  `mId` is the
document `_id`; `payload` holds the foreign `_id` of the payload document;
`error` is the last error message; `workerId`/`workerHostname` are absent
until first claimed. -/
structure Job where
  mId : Nat
  payload : Nat
  createdAt : Nat
  blockedUntil : Nat
  workerId : Option String
  workerHostname : Option String
  retries : Nat
  done : Bool
  error : Option String
deriving DecidableEq, Repr

/-- Recognized options of the `MongooseQueue` constructor that affect claim
semantics (defaults in the source: `blockDuration = 30000`,
`maxRetries = 5`). -/
structure QueueOptions where
  blockDuration : Nat
  maxRetries : Nat
deriving DecidableEq, Repr

/-- Identity of a queue instance: `workerId` passed to the constructor and
`workerHostname = os.hostname()`. -/
structure Worker where
  workerId : String
  workerHostname : String
deriving DecidableEq, Repr

/-- The claim filter of `get()`:
`{blockedUntil: {$lt: Date.now()}, retries: {$lte: maxRetries}, done: false}`. -/
def claimableB (opts : QueueOptions) (now : Nat) (j : Job) : Bool :=
  decide (j.blockedUntil < now) && decide (j.retries ≤ opts.maxRetries) && !j.done

/-- Minimal `createdAt` among jobs of the store satisfying `f` (the sort key
of `get()`), `none` when no job matches. -/
def minCA (f : Job → Bool) : List Job → Option Nat
  | [] => none
  | j :: rest =>
    match minCA f rest with
    | none => if f j then some j.createdAt else none
    | some c => if f j then some (min j.createdAt c) else some c

/-- Atomic find-and-modify on the store: update the first job satisfying
`p` with `g`, returning the post-update document (`new: true`) and the new
store.  This is the Atomic Claim Primitive: one indivisible step. -/
def claimFirst (p : Job → Bool) (g : Job → Job) : List Job → Option Job × List Job
  | [] => (none, [])
  | j :: rest =>
    if p j then (some (g j), g j :: rest)
    else ((claimFirst p g rest).1, j :: (claimFirst p g rest).2)

/-- The update document of `get()`:
`$set {blockedUntil: now + blockDuration, workerId, workerHostname}`,
`$inc {retries: 1}`. -/
def applyClaim (opts : QueueOptions) (w : Worker) (now : Nat) (j : Job) : Job :=
  { j with
    blockedUntil := now + opts.blockDuration
    workerId := some w.workerId
    workerHostname := some w.workerHostname
    retries := j.retries + 1 }

/-- The view returned by `get()`: id, populated payload, blockedUntil,
done.  `payload` is the result of `populate` — the referenced payload
document resolved through the payload model. -/
structure GetView where
  id : Nat
  payload : Option Nat
  blockedUntil : Nat
  done : Bool
deriving DecidableEq, Repr

/-- `get(cb)`: atomically claim the oldest (`sort: {createdAt: 1}`)
claimable job, blocking it and incrementing `retries`; `(none, s)` models
`cb(null, null)` when nothing matches.  `resolve` models `populate`:
it maps a payload reference to the referenced document, if any. -/
def getOp (opts : QueueOptions) (w : Worker) (now : Nat)
    (resolve : Nat → Option Nat) (s : List Job) : Option GetView × List Job :=
  match minCA (claimableB opts now) s with
  | none => (none, s)
  | some c =>
    let r := claimFirst (fun j => claimableB opts now j && (j.createdAt == c))
      (applyClaim opts w now) s
    match r.1 with
    | none => (none, r.2)
    | some j => (some ⟨j.mId, resolve j.payload, j.blockedUntil, j.done⟩, r.2)

/-- The view returned by `ack()` and (with `error`) by `error()`: the raw
(unpopulated) fields of the updated job. -/
structure AckView where
  id : Nat
  payload : Nat
  blockedUntil : Nat
  done : Bool
  error : Option String
deriving DecidableEq, Repr

def Job.toAckView (j : Job) : AckView :=
  ⟨j.mId, j.payload, j.blockedUntil, j.done, j.error⟩

/-- `ack(jobId, cb)`: `findOneAndUpdate({_id: jobId}, {$set: {done: true}},
{new: true})`; fails with "Job id invalid, job not found." when no job has
that id. -/
def ackOp (jobId : Nat) (s : List Job) : Except String AckView × List Job :=
  match claimFirst (fun j => j.mId == jobId) (fun j => { j with done := true }) s with
  | (none, s') => (Except.error "Job id invalid, job not found.", s')
  | (some j, s') => (Except.ok j.toAckView, s')

/-- `error(jobId, message, cb)`: `findOneAndUpdate({_id: jobId},
{$set: {done: true, error: message}}, {new: true})`; same not-found error
as `ack`. -/
def errorOp (jobId : Nat) (msg : String) (s : List Job) :
    Except String AckView × List Job :=
  match claimFirst (fun j => j.mId == jobId)
      (fun j => { j with done := true, error := some msg }) s with
  | (none, s') => (Except.error "Job id invalid, job not found.", s')
  | (some j, s') => (Except.ok j.toAckView, s')

/-- The job schema as built by `schemas/job-schema.js`: the payload
reference type passed to the factory, and the `blockedUntil` default.  The
source writes `default: Date.now()` — the default is the single value of
`Date.now()` at the moment the schema object is constructed, not a
per-document function. -/
structure SchemaDef where
  payloadRefType : String
  blockedUntilDefault : Nat
deriving DecidableEq, Repr

/-- The model returned by the factory: `mongoose.model(collectionName, Job)`. -/
structure JobModel where
  collection : String
  schema : SchemaDef
deriving DecidableEq, Repr

/-- The factory of `schemas/job-schema.js`: a module-level variable
`Job` caches the schema built on the first invocation (at time `now`);
every later invocation returns a model over the cached schema, ignoring
its own `payloadRefType` argument. -/
def jobSchemaFactory (cached : Option SchemaDef) (now : Nat)
    (collectionName payloadRefType : String) : JobModel × Option SchemaDef :=
  match cached with
  | none => (⟨collectionName, ⟨payloadRefType, now⟩⟩, some ⟨payloadRefType, now⟩)
  | some sd => (⟨collectionName, sd⟩, some sd)

/-- The document inserted by a successful `add`: payload set to the
payload's `_id`, every other field at its schema default (`retries = 0`,
`done = false`, no worker, no error, `createdAt` from `timestamps: true`,
`blockedUntil` from the schema default). -/
def newJob (schema : SchemaDef) (now newId pid : Nat) : Job :=
  ⟨newId, pid, now, schema.blockedUntilDefault, none, none, 0, false, none⟩

/-- `add(payload, cb)`: the payload argument is `none` (missing),
`some none` (an object without an `_id`), or `some (some pid)` (a
persisted document with `_id = pid`).  On success the new job's id is
returned and the document is inserted. -/
def addOp (schema : SchemaDef) (now newId : Nat) (payload : Option (Option Nat))
    (s : List Job) : Except String Nat × List Job :=
  match payload with
  | none => (Except.error "Payload missing.", s)
  | some none => (Except.error "Payload is no valid Mongoose document.", s)
  | some (some pid) => (Except.ok newId, s ++ [newJob schema now newId pid])

/-- `clean(cb)`: `remove({$or: [{done: true}, {retries: {$gt: maxRetries}}]})`
— keep exactly the jobs that are neither done nor over the retry bound. -/
def cleanOp (opts : QueueOptions) (s : List Job) : List Job :=
  s.filter (fun j => !(j.done || decide (opts.maxRetries < j.retries)))

/-- `reset(cb)`: `remove({})`. -/
def resetOp (_s : List Job) : List Job := []

/-- Ids of the jobs currently claimable in a store. -/
def claimableIds (opts : QueueOptions) (now : Nat) (s : List Job) : List Nat :=
  (s.filter (claimableB opts now)).map Job.mId

/-- A set of concurrent `get()` calls, one per worker in `ws`, serialised:
each call is a single atomic find-and-modify, so any concurrent execution
against the store is equivalent to some sequential order of the calls, all
at the same instant `now`. -/
def getRace (opts : QueueOptions) (now : Nat) (resolve : Nat → Option Nat) :
    List Worker → List Job → List (Option GetView) × List Job
  | [], s => ([], s)
  | w :: ws, s =>
    let r := getOp opts w now resolve s
    let rest := getRace opts now resolve ws r.2
    (r.1 :: rest.1, rest.2)

/-! ## Basic facts about the claim filter and the find-and-modify step -/

theorem claimableB_iff (opts : QueueOptions) (now : Nat) (j : Job) :
    claimableB opts now j = true ↔
      j.blockedUntil < now ∧ j.retries ≤ opts.maxRetries ∧ j.done = false := by
  simp [claimableB, Bool.and_eq_true, decide_eq_true_eq, and_assoc]

theorem claimableB_applyClaim (opts : QueueOptions) (w : Worker) (now : Nat) (j : Job) :
    claimableB opts now (applyClaim opts w now j) = false := by
  simp only [claimableB, applyClaim, Bool.and_eq_false_iff]
  left; left
  simp [Nat.not_lt]

theorem applyClaim_mId (opts : QueueOptions) (w : Worker) (now : Nat) (j : Job) :
    (applyClaim opts w now j).mId = j.mId := rfl

theorem minCA_none_all_false {f : Job → Bool} :
    ∀ {s : List Job}, minCA f s = none → ∀ j ∈ s, f j = false := by
  intro s
  induction s with
  | nil => simp
  | cons j rest ih =>
    intro h x hx
    cases hm : minCA f rest with
    | none =>
      rw [minCA, hm] at h
      by_cases hj : f j
      · simp [hj] at h
      · rcases List.mem_cons.mp hx with rfl | hx'
        · exact Bool.of_not_eq_true hj
        · exact ih hm x hx'
    | some c =>
      rw [minCA, hm] at h
      by_cases hj : f j <;> simp [hj] at h

theorem minCA_of_all_false {f : Job → Bool} :
    ∀ {s : List Job}, (∀ j ∈ s, f j = false) → minCA f s = none := by
  intro s
  induction s with
  | nil => simp [minCA]
  | cons j rest ih =>
    intro h
    have hrest : minCA f rest = none := ih (fun x hx => h x (List.mem_cons_of_mem _ hx))
    rw [minCA, hrest, h j (List.mem_cons_self _ _)]
    simp

theorem minCA_attained {f : Job → Bool} :
    ∀ {s : List Job} {c : Nat}, minCA f s = some c →
      ∃ b ∈ s, f b = true ∧ b.createdAt = c := by
  intro s
  induction s with
  | nil => simp [minCA]
  | cons j rest ih =>
    intro c h
    cases hm : minCA f rest with
    | none =>
      rw [minCA, hm] at h
      by_cases hj : f j
      · simp [hj] at h
        exact ⟨j, List.mem_cons_self _ _, hj, h⟩
      · simp [hj] at h
    | some c' =>
      rw [minCA, hm] at h
      by_cases hj : f j
      · simp [hj] at h
        rcases Nat.le_total j.createdAt c' with hle | hle
        · refine ⟨j, List.mem_cons_self _ _, hj, ?_⟩
          rw [← h, Nat.min_eq_left hle]
        · obtain ⟨b, hb, hfb, hcb⟩ := ih hm
          refine ⟨b, List.mem_cons_of_mem _ hb, hfb, ?_⟩
          rw [← h, Nat.min_eq_right hle, hcb]
      · simp [hj] at h
        obtain ⟨b, hb, hfb, hcb⟩ := ih (h ▸ hm)
        exact ⟨b, List.mem_cons_of_mem _ hb, hfb, hcb⟩

theorem minCA_le {f : Job → Bool} :
    ∀ {s : List Job} {c : Nat}, minCA f s = some c →
      ∀ j ∈ s, f j = true → c ≤ j.createdAt := by
  intro s
  induction s with
  | nil => simp
  | cons j rest ih =>
    intro c h x hx hfx
    cases hm : minCA f rest with
    | none =>
      rw [minCA, hm] at h
      by_cases hj : f j
      · simp [hj] at h
        rcases List.mem_cons.mp hx with rfl | hx'
        · exact h ▸ Nat.le_refl _
        · exact absurd hfx (by simp [minCA_none_all_false hm x hx'])
      · simp [hj] at h
    | some c' =>
      rw [minCA, hm] at h
      by_cases hj : f j
      · simp [hj] at h
        rcases List.mem_cons.mp hx with rfl | hx'
        · exact h ▸ Nat.min_le_left _ _
        · exact Nat.le_trans (h ▸ Nat.min_le_right _ _) (ih hm x hx' hfx)
      · simp [hj] at h
        rcases List.mem_cons.mp hx with rfl | hx'
        · exact absurd hfx (by simp [hj])
        · exact ih (h ▸ hm) x hx' hfx

theorem claimFirst_cons_pos {p : Job → Bool} {g : Job → Job} {j : Job}
    {rest : List Job} (hj : p j = true) :
    claimFirst p g (j :: rest) = (some (g j), g j :: rest) := by
  simp [claimFirst, hj]

theorem claimFirst_cons_neg {p : Job → Bool} {g : Job → Job} {j : Job}
    {rest : List Job} (hj : p j = false) :
    claimFirst p g (j :: rest) =
      ((claimFirst p g rest).1, j :: (claimFirst p g rest).2) := by
  simp [claimFirst, hj]

theorem mem_of_getElem?_job {s : List Job} {i : Nat} {b : Job}
    (h : s[i]? = some b) : b ∈ s := by
  obtain ⟨hlt, rfl⟩ := List.getElem?_eq_some_iff.1 h
  exact List.getElem_mem hlt

theorem claimFirst_of_all_false {p : Job → Bool} {g : Job → Job} :
    ∀ {s : List Job}, (∀ j ∈ s, p j = false) → claimFirst p g s = (none, s) := by
  intro s
  induction s with
  | nil => simp [claimFirst]
  | cons j rest ih =>
    intro h
    have hj : p j = false := h j (List.mem_cons_self _ _)
    have hrest := ih (fun x hx => h x (List.mem_cons_of_mem _ hx))
    simp [claimFirst, hj, hrest]

theorem claimFirst_none_all_false {p : Job → Bool} {g : Job → Job} :
    ∀ {s : List Job}, (claimFirst p g s).1 = none → ∀ j ∈ s, p j = false := by
  intro s
  induction s with
  | nil => simp
  | cons j rest ih =>
    intro h x hx
    by_cases hj : p j
    · simp [claimFirst, hj] at h
    · simp only [claimFirst, hj, if_false, Bool.false_eq_true, if_neg] at h
      rcases List.mem_cons.mp hx with rfl | hx'
      · exact Bool.of_not_eq_true hj
      · exact ih h x hx'

theorem claimFirst_fst_isSome {p : Job → Bool} {g : Job → Job} {s : List Job}
    (h : ∃ b ∈ s, p b = true) : ∃ r, (claimFirst p g s).1 = some r := by
  cases hr : (claimFirst p g s).1 with
  | none =>
    obtain ⟨b, hb, hpb⟩ := h
    rw [claimFirst_none_all_false hr b hb] at hpb
    exact Bool.noConfusion hpb
  | some r => exact ⟨r, rfl⟩

theorem claimFirst_some_spec {p : Job → Bool} {g : Job → Job} :
    ∀ {s : List Job} {r : Job}, (claimFirst p g s).1 = some r →
      ∃ i b, s[i]? = some b ∧ p b = true ∧ r = g b ∧
        (claimFirst p g s).2 = s.set i (g b) ∧
        ∀ k b', k < i → s[k]? = some b' → p b' = false := by
  intro s
  induction s with
  | nil => simp [claimFirst]
  | cons j rest ih =>
    intro r h
    by_cases hj : p j
    · rw [claimFirst_cons_pos hj] at h ⊢
      simp only [Option.some.injEq] at h
      refine ⟨0, j, by simp, hj, h.symm, ?_, ?_⟩
      · simp
      · intro k b' hk
        exact absurd hk (Nat.not_lt_zero k)
    · rw [Bool.not_eq_true] at hj
      rw [claimFirst_cons_neg hj] at h ⊢
      obtain ⟨i, b, hget, hpb, hr, hsnd, hfirst⟩ := ih h
      refine ⟨i + 1, b, by simpa using hget, hpb, hr, ?_, ?_⟩
      · simp [hsnd]
      · intro k b' hk hget'
        cases k with
        | zero =>
          simp at hget'
          exact hget' ▸ hj
        | succ k' =>
          exact hfirst k' b' (Nat.lt_of_succ_lt_succ hk) (by simpa using hget')

theorem claimFirst_some_exists {p : Job → Bool} {g : Job → Job} {s : List Job} {r : Job}
    (h : (claimFirst p g s).1 = some r) : ∃ b ∈ s, p b = true ∧ r = g b := by
  obtain ⟨i, b, hget, hpb, hr, -, -⟩ := claimFirst_some_spec h
  exact ⟨b, mem_of_getElem?_job hget, hpb, hr⟩

theorem claimFirst_mem_snd {p : Job → Bool} {g : Job → Job} :
    ∀ {s : List Job} {r : Job}, (claimFirst p g s).1 = some r →
      r ∈ (claimFirst p g s).2 := by
  intro s
  induction s with
  | nil => simp [claimFirst]
  | cons j rest ih =>
    intro r h
    by_cases hj : p j
    · rw [claimFirst_cons_pos hj] at h ⊢
      simp only [Option.some.injEq] at h
      simp [h]
    · rw [Bool.not_eq_true] at hj
      rw [claimFirst_cons_neg hj] at h ⊢
      exact List.mem_cons_of_mem _ (ih h)

theorem claimFirst_snd_map {p : Job → Bool} {g : Job → Job} {β : Type}
    {h : Job → β} (hg : ∀ j, h (g j) = h j) :
    ∀ s : List Job, ((claimFirst p g s).2).map h = s.map h := by
  intro s
  induction s with
  | nil => simp [claimFirst]
  | cons j rest ih =>
    by_cases hj : p j
    · simp [claimFirst, hj, hg]
    · simp [claimFirst, hj, ih]

theorem claimFirst_countP {f p : Job → Bool} {g : Job → Job}
    (hpf : ∀ j, p j = true → f j = true) (hgf : ∀ j, f (g j) = false) :
    ∀ {s : List Job} {r : Job}, (claimFirst p g s).1 = some r →
      ((claimFirst p g s).2).countP f + 1 = s.countP f := by
  intro s
  induction s with
  | nil => simp [claimFirst]
  | cons j rest ih =>
    intro r h
    by_cases hj : p j
    · rw [claimFirst_cons_pos hj]
      simp [List.countP_cons, hgf, hpf j hj, Nat.add_comm]
    · rw [Bool.not_eq_true] at hj
      rw [claimFirst_cons_neg hj] at h ⊢
      simp only [List.countP_cons]
      rw [← ih h]
      omega

theorem claimableIds_subset_ids {opts : QueueOptions} {now : Nat} {s : List Job}
    {x : Nat} (h : x ∈ claimableIds opts now s) : x ∈ s.map Job.mId := by
  obtain ⟨b, hb, rfl⟩ := List.mem_map.mp h
  exact List.mem_map.mpr ⟨b, (List.mem_filter.mp hb).1, rfl⟩

theorem claimableIds_cons_pos {opts : QueueOptions} {now : Nat} {j : Job}
    {rest : List Job} (hj : claimableB opts now j = true) :
    claimableIds opts now (j :: rest) = j.mId :: claimableIds opts now rest := by
  simp [claimableIds, List.filter_cons, hj]

theorem claimableIds_cons_neg {opts : QueueOptions} {now : Nat} {j : Job}
    {rest : List Job} (hj : claimableB opts now j = false) :
    claimableIds opts now (j :: rest) = claimableIds opts now rest := by
  simp [claimableIds, List.filter_cons, hj]

theorem mem_claimableIds_cons {opts : QueueOptions} {now : Nat} {j : Job}
    {rest : List Job} {x : Nat} (h : x ∈ claimableIds opts now rest) :
    x ∈ claimableIds opts now (j :: rest) := by
  by_cases hj : claimableB opts now j
  · rw [claimableIds_cons_pos hj]
    exact List.mem_cons_of_mem _ h
  · rw [claimableIds_cons_neg (Bool.not_eq_true _ |>.mp hj)]
    exact h

theorem claimFirst_claimableIds_subset {opts : QueueOptions} {now : Nat}
    {p : Job → Bool} {g : Job → Job}
    (hg1 : ∀ j, claimableB opts now (g j) = false) :
    ∀ {s : List Job} {x : Nat}, x ∈ claimableIds opts now (claimFirst p g s).2 →
      x ∈ claimableIds opts now s := by
  intro s
  induction s with
  | nil => simp [claimFirst]
  | cons j rest ih =>
    intro x hx
    by_cases hj : p j
    · rw [claimFirst_cons_pos hj] at hx
      simp only at hx
      rw [claimableIds_cons_neg (hg1 j)] at hx
      exact mem_claimableIds_cons hx
    · rw [Bool.not_eq_true] at hj
      rw [claimFirst_cons_neg hj] at hx
      simp only at hx
      by_cases hcj : claimableB opts now j
      · rw [claimableIds_cons_pos hcj] at hx
        rw [claimableIds_cons_pos hcj]
        rcases List.mem_cons.mp hx with rfl | hx'
        · exact List.mem_cons_self _ _
        · exact List.mem_cons_of_mem _ (ih hx')
      · rw [Bool.not_eq_true] at hcj
        rw [claimableIds_cons_neg hcj] at hx ⊢
        exact ih hx

theorem claimFirst_claimed_not_claimable {opts : QueueOptions} {now : Nat}
    {p : Job → Bool} {g : Job → Job}
    (hg1 : ∀ j, claimableB opts now (g j) = false)
    (hg2 : ∀ j, (g j).mId = j.mId) :
    ∀ {s : List Job} {r : Job}, (s.map Job.mId).Nodup →
      (claimFirst p g s).1 = some r →
      r.mId ∉ claimableIds opts now (claimFirst p g s).2 := by
  intro s
  induction s with
  | nil => simp [claimFirst]
  | cons j rest ih =>
    intro r hnd h
    have hndj : j.mId ∉ rest.map Job.mId := (List.nodup_cons.mp (by simpa using hnd)).1
    have hndr : (rest.map Job.mId).Nodup := (List.nodup_cons.mp (by simpa using hnd)).2
    by_cases hj : p j
    · rw [claimFirst_cons_pos hj] at h ⊢
      simp only [Option.some.injEq] at h
      subst h
      simp only
      rw [claimableIds_cons_neg (hg1 j), hg2]
      intro hmem
      exact hndj (claimableIds_subset_ids hmem)
    · rw [Bool.not_eq_true] at hj
      rw [claimFirst_cons_neg hj] at h ⊢
      simp only at h ⊢
      obtain ⟨b, hb, hpb, rfl⟩ := claimFirst_some_exists h
      have hrid : (g b).mId ∈ rest.map Job.mId := by
        rw [hg2]
        exact List.mem_map.mpr ⟨b, hb, rfl⟩
      by_cases hcj : claimableB opts now j
      · rw [claimableIds_cons_pos hcj]
        intro hmem
        rcases List.mem_cons.mp hmem with heq | hmem'
        · exact hndj (heq ▸ hrid)
        · exact ih hndr h hmem'
      · rw [Bool.not_eq_true] at hcj
        rw [claimableIds_cons_neg hcj]
        exact ih hndr h

theorem claimFirst_claimed_mem_claimableIds {opts : QueueOptions} {now : Nat}
    {p : Job → Bool} {g : Job → Job} {s : List Job} {r : Job}
    (hp : ∀ j, p j = true → claimableB opts now j = true)
    (hg2 : ∀ j, (g j).mId = j.mId)
    (h : (claimFirst p g s).1 = some r) :
    r.mId ∈ claimableIds opts now s := by
  obtain ⟨b, hb, hpb, rfl⟩ := claimFirst_some_exists h
  rw [hg2]
  exact List.mem_map.mpr ⟨b, List.mem_filter.mpr ⟨hb, hp b hpb⟩, rfl⟩

/-! ## Behaviour of `get()` -/

theorem getOp_of_no_claimable {opts : QueueOptions} {w : Worker} {now : Nat}
    {q : Nat → Option Nat} {s : List Job}
    (h : ∀ j ∈ s, claimableB opts now j = false) :
    getOp opts w now q s = (none, s) := by
  simp only [getOp, minCA_of_all_false h]

theorem getOp_eq_some {opts : QueueOptions} {w : Worker} {now : Nat}
    {q : Nat → Option Nat} {s : List Job} {c : Nat} {r : Job}
    (hm : minCA (claimableB opts now) s = some c)
    (hr : (claimFirst (fun j => claimableB opts now j && (j.createdAt == c))
            (applyClaim opts w now) s).1 = some r) :
    getOp opts w now q s =
      (some ⟨r.mId, q r.payload, r.blockedUntil, r.done⟩,
       (claimFirst (fun j => claimableB opts now j && (j.createdAt == c))
         (applyClaim opts w now) s).2) := by
  unfold getOp
  rw [hm]
  simp only [hr]

theorem getOp_claim_exists {opts : QueueOptions} {w : Worker} {now : Nat}
    {s : List Job} (h : ∃ b ∈ s, claimableB opts now b = true) :
    ∃ c r, minCA (claimableB opts now) s = some c ∧
      (claimFirst (fun j => claimableB opts now j && (j.createdAt == c))
        (applyClaim opts w now) s).1 = some r := by
  cases hm : minCA (claimableB opts now) s with
  | none =>
    obtain ⟨b, hb, hcb⟩ := h
    rw [minCA_none_all_false hm b hb] at hcb
    exact Bool.noConfusion hcb
  | some c =>
    obtain ⟨b, hb, hfb, hcb⟩ := minCA_attained hm
    obtain ⟨r, hr⟩ := claimFirst_fst_isSome
      (p := fun j => claimableB opts now j && (j.createdAt == c))
      (g := applyClaim opts w now) ⟨b, hb, by simp [hfb, hcb]⟩
    exact ⟨c, r, rfl, hr⟩

theorem getOp_some_spec {opts : QueueOptions} {w : Worker} {now : Nat}
    {q : Nat → Option Nat} {s : List Job}
    (h : ∃ b ∈ s, claimableB opts now b = true) :
    ∃ v s' i b, getOp opts w now q s = (some v, s') ∧
      s[i]? = some b ∧ claimableB opts now b = true ∧
      (∀ j ∈ s, claimableB opts now j = true → b.createdAt ≤ j.createdAt) ∧
      s' = s.set i (applyClaim opts w now b) ∧
      v = ⟨b.mId, q b.payload, now + opts.blockDuration, b.done⟩ := by
  obtain ⟨c, r, hm, hr⟩ := getOp_claim_exists (w := w) h
  obtain ⟨i, b, hget, hpb, hrgb, hsnd, -⟩ := claimFirst_some_spec hr
  simp only [Bool.and_eq_true] at hpb
  have hcb : claimableB opts now b = true := hpb.1
  have hca : b.createdAt = c := by simpa using hpb.2
  refine ⟨_, _, i, b, getOp_eq_some hm hr, hget, hcb, ?_, hsnd, ?_⟩
  · intro j hj hcj
    rw [hca]
    exact minCA_le hm j hj hcj
  · rw [hrgb]
    rfl

theorem getOp_some_race {opts : QueueOptions} {w : Worker} {now : Nat}
    {q : Nat → Option Nat} {s : List Job}
    (hnd : (s.map Job.mId).Nodup) (h : ∃ b ∈ s, claimableB opts now b = true) :
    ∃ v s', getOp opts w now q s = (some v, s') ∧
      s'.map Job.mId = s.map Job.mId ∧
      s'.countP (claimableB opts now) + 1 = s.countP (claimableB opts now) ∧
      v.id ∈ claimableIds opts now s ∧
      v.id ∉ claimableIds opts now s' ∧
      (∀ x ∈ claimableIds opts now s', x ∈ claimableIds opts now s) := by
  obtain ⟨c, r, hm, hr⟩ := getOp_claim_exists (w := w) h
  have hpf : ∀ j : Job, (claimableB opts now j && (j.createdAt == c)) = true →
      claimableB opts now j = true := by
    intro j hj
    simp only [Bool.and_eq_true] at hj
    exact hj.1
  have hgf : ∀ j, claimableB opts now (applyClaim opts w now j) = false :=
    claimableB_applyClaim opts w now
  have hg2 : ∀ j, (applyClaim opts w now j).mId = j.mId :=
    applyClaim_mId opts w now
  refine ⟨_, _, getOp_eq_some hm hr, ?_, ?_, ?_, ?_, ?_⟩
  · exact claimFirst_snd_map hg2 s
  · exact claimFirst_countP hpf hgf hr
  · exact claimFirst_claimed_mem_claimableIds hpf hg2 hr
  · exact claimFirst_claimed_not_claimable hgf hg2 hnd hr
  · intro x hx
    exact claimFirst_claimableIds_subset hgf hx

/-! ## Serialised concurrent `get()` calls -/

theorem length_filterMap_id_add_countP_isNone :
    ∀ l : List (Option GetView),
      (l.filterMap id).length + l.countP (fun o => o.isNone) = l.length := by
  intro l
  induction l with
  | nil => rfl
  | cons o l ih =>
    cases o <;> simp [List.filterMap_cons, List.countP_cons] <;> omega

theorem getRace_spec (opts : QueueOptions) (now : Nat) (resolve : Nat → Option Nat) :
    ∀ (ws : List Worker) (s : List Job), (s.map Job.mId).Nodup →
      ((getRace opts now resolve ws s).1.length = ws.length) ∧
      (((getRace opts now resolve ws s).1.filterMap id).length
          = min ws.length (s.countP (claimableB opts now))) ∧
      ((((getRace opts now resolve ws s).1.filterMap id).map GetView.id).Nodup) ∧
      (∀ v ∈ (getRace opts now resolve ws s).1.filterMap id,
        v.id ∈ claimableIds opts now s) := by
  intro ws
  induction ws with
  | nil =>
    intro s hnd
    simp [getRace]
  | cons w ws ih =>
    intro s hnd
    by_cases hcl : ∃ b ∈ s, claimableB opts now b = true
    · obtain ⟨v, s', hgo, hmap, hcount, hmem, hnot, hsub⟩ :=
        getOp_some_race (w := w) (q := resolve) hnd hcl
      have hnd' : (s'.map Job.mId).Nodup := hmap ▸ hnd
      obtain ⟨ih1, ih2, ih3, ih4⟩ := ih s' hnd'
      have hrace : getRace opts now resolve (w :: ws) s
          = (some v :: (getRace opts now resolve ws s').1,
             (getRace opts now resolve ws s').2) := by
        simp [getRace, hgo]
      rw [hrace]
      refine ⟨by simp [ih1], ?_, ?_, ?_⟩
      · simp only [List.filterMap_cons, id, List.length_cons]
        omega
      · simp only [List.filterMap_cons, id, List.map_cons]
        rw [List.nodup_cons]
        refine ⟨?_, ih3⟩
        intro hin
        obtain ⟨v', hv', heq⟩ := List.mem_map.mp hin
        exact hnot (heq ▸ ih4 v' hv')
      · intro x hx
        simp only [List.filterMap_cons, id] at hx
        rcases List.mem_cons.mp hx with rfl | hx'
        · exact hmem
        · exact hsub _ (ih4 x hx')
    · have hall : ∀ j ∈ s, claimableB opts now j = false := by
        intro j hj
        by_contra hc
        exact hcl ⟨j, hj, by simpa using hc⟩
      have hgo := getOp_of_no_claimable (w := w) (q := resolve) hall
      obtain ⟨ih1, ih2, ih3, ih4⟩ := ih s hnd
      have hrace : getRace opts now resolve (w :: ws) s
          = (none :: (getRace opts now resolve ws s).1,
             (getRace opts now resolve ws s).2) := by
        simp [getRace, hgo]
      rw [hrace]
      have hc0 : s.countP (claimableB opts now) = 0 := by
        rw [List.countP_eq_zero]
        intro a ha
        simp [hall a ha]
      refine ⟨by simp [ih1], ?_, ?_, ?_⟩
      · simp only [List.filterMap_cons, id, List.length_cons]
        rw [ih2, hc0]
        simp
      · simpa using ih3
      · intro x hx
        simp only [List.filterMap_cons, id] at hx
        exact ih4 x hx

/-! ## Behaviour of `ack()` and `error()` -/

theorem claimById_found {jobId : Nat} {g : Job → Job} {s : List Job}
    (h : ∃ b ∈ s, b.mId = jobId) :
    ∃ b, b ∈ s ∧ b.mId = jobId ∧
      claimFirst (fun j => j.mId == jobId) g s
        = (some (g b), (claimFirst (fun j => j.mId == jobId) g s).2) ∧
      g b ∈ (claimFirst (fun j => j.mId == jobId) g s).2 := by
  obtain ⟨b0, hb0, hid0⟩ := h
  obtain ⟨r, hr⟩ := claimFirst_fst_isSome (p := fun j => j.mId == jobId) (g := g)
    ⟨b0, hb0, by simp [hid0]⟩
  obtain ⟨b, hb, hpb, rfl⟩ := claimFirst_some_exists hr
  have hid : b.mId = jobId := by simpa using hpb
  refine ⟨b, hb, hid, ?_, claimFirst_mem_snd hr⟩
  rw [← hr]

theorem ackOp_found {jobId : Nat} {s : List Job} (h : ∃ b ∈ s, b.mId = jobId) :
    ∃ v s', ackOp jobId s = (Except.ok v, s') ∧ v.done = true ∧
      ∃ b' ∈ s', b'.mId = jobId ∧ b'.done = true := by
  obtain ⟨b, hb, hid, hpair, hmem⟩ :=
    claimById_found (g := fun j => { j with done := true }) h
  have hack : ackOp jobId s
      = (Except.ok (Job.toAckView { b with done := true }),
         (claimFirst (fun j => j.mId == jobId) (fun j => { j with done := true }) s).2) := by
    rw [ackOp, hpair]
  exact ⟨_, _, hack, rfl, { b with done := true }, hmem, hid, rfl⟩

theorem errorOp_found {jobId : Nat} {m : String} {s : List Job}
    (h : ∃ b ∈ s, b.mId = jobId) :
    ∃ v s', errorOp jobId m s = (Except.ok v, s') ∧ v.done = true ∧
      v.error = some m ∧
      ∃ b' ∈ s', b'.mId = jobId ∧ b'.done = true ∧ b'.error = some m := by
  obtain ⟨b, hb, hid, hpair, hmem⟩ :=
    claimById_found (g := fun j => { j with done := true, error := some m }) h
  have herr : errorOp jobId m s
      = (Except.ok (Job.toAckView { b with done := true, error := some m }),
         (claimFirst (fun j => j.mId == jobId)
           (fun j => { j with done := true, error := some m }) s).2) := by
    rw [errorOp, hpair]
  exact ⟨_, _, herr, rfl, rfl, { b with done := true, error := some m }, hmem, hid, rfl, rfl⟩

theorem getOp_some_inv {opts : QueueOptions} {w : Worker} {now : Nat}
    {q : Nat → Option Nat} {s s' : List Job} {v : GetView}
    (h : getOp opts w now q s = (some v, s')) :
    ∃ b ∈ s, claimableB opts now b = true ∧
      v = ⟨b.mId, q b.payload, now + opts.blockDuration, b.done⟩ := by
  by_cases hcl : ∃ b ∈ s, claimableB opts now b = true
  · obtain ⟨v0, s0, i, b, h1, h2, h3, -, -, h6⟩ :=
      getOp_some_spec (w := w) (q := q) hcl
    rw [h] at h1
    have hv : v = v0 := by
      have := congrArg Prod.fst h1
      simpa using this
    exact ⟨b, mem_of_getElem?_job h2, h3, by rw [hv, h6]⟩
  · have hall : ∀ j ∈ s, claimableB opts now j = false := by
      intro j hj
      by_contra hc
      exact hcl ⟨j, hj, by simpa using hc⟩
    rw [getOp_of_no_claimable hall] at h
    exact absurd (congrArg Prod.fst h) (by simp)

/-! ## Claims -/

/-- C1: For concurrent `get()` calls against the same store (serialised
through the atomic find-and-modify step, all at the same instant), with N
workers and M claimable jobs, N > M: exactly M calls return a job, the
returned job ids are pairwise distinct (no job is double-claimed), and the
remaining N − M calls return empty. -/
theorem get_at_most_one_claimant (opts : QueueOptions) (now : Nat)
    (resolve : Nat → Option Nat) (ws : List Worker) (s : List Job)
    (hnd : (s.map Job.mId).Nodup)
    (hNM : s.countP (claimableB opts now) < ws.length) :
    ((getRace opts now resolve ws s).1.filterMap id).length
        = s.countP (claimableB opts now) ∧
    ((((getRace opts now resolve ws s).1.filterMap id).map GetView.id).Nodup) ∧
    (getRace opts now resolve ws s).1.countP (fun o => o.isNone)
        = ws.length - s.countP (claimableB opts now) := by
  obtain ⟨h1, h2, h3, -⟩ := getRace_spec opts now resolve ws s hnd
  have hmin : min ws.length (s.countP (claimableB opts now))
      = s.countP (claimableB opts now) := Nat.min_eq_right (Nat.le_of_lt hNM)
  have hc := length_filterMap_id_add_countP_isNone (getRace opts now resolve ws s).1
  refine ⟨h2.trans hmin, h3, ?_⟩
  omega

theorem get_at_most_one_claimant_witness :
    ((([⟨1, 10, 0, 0, none, none, 0, false, none⟩] : List Job).map Job.mId).Nodup ∧
      ([⟨1, 10, 0, 0, none, none, 0, false, none⟩] : List Job).countP
          (claimableB ⟨30000, 5⟩ 10) < ([⟨"a", "ha"⟩, ⟨"b", "hb"⟩] : List Worker).length) ∧
    ((((getRace ⟨30000, 5⟩ 10 (fun _ => none) [⟨"a", "ha"⟩, ⟨"b", "hb"⟩]
          [⟨1, 10, 0, 0, none, none, 0, false, none⟩]).1.filterMap id).length
        = ([⟨1, 10, 0, 0, none, none, 0, false, none⟩] : List Job).countP
            (claimableB ⟨30000, 5⟩ 10)) ∧
      ((((getRace ⟨30000, 5⟩ 10 (fun _ => none) [⟨"a", "ha"⟩, ⟨"b", "hb"⟩]
          [⟨1, 10, 0, 0, none, none, 0, false, none⟩]).1.filterMap id).map GetView.id).Nodup) ∧
      (getRace ⟨30000, 5⟩ 10 (fun _ => none) [⟨"a", "ha"⟩, ⟨"b", "hb"⟩]
          [⟨1, 10, 0, 0, none, none, 0, false, none⟩]).1.countP (fun o => o.isNone)
        = ([⟨"a", "ha"⟩, ⟨"b", "hb"⟩] : List Worker).length
            - ([⟨1, 10, 0, 0, none, none, 0, false, none⟩] : List Job).countP
                (claimableB ⟨30000, 5⟩ 10)) :=
  ⟨⟨by decide, by decide⟩,
    get_at_most_one_claimant ⟨30000, 5⟩ 10 (fun _ => none)
      [⟨"a", "ha"⟩, ⟨"b", "hb"⟩] [⟨1, 10, 0, 0, none, none, 0, false, none⟩]
      (by decide) (by decide)⟩

/-- C2: When the store holds at least one claimable job, `get()` selects a
single job `b` that is claimable and whose `createdAt` is minimal among
the claimable jobs, and in the same atomic step sets
`blockedUntil = now + blockDuration`, `workerId`, `workerHostname`, and
increments `retries` by exactly one, returning the view
(id, resolved payload, blockedUntil, done). -/
theorem get_claims_oldest_and_blocks (opts : QueueOptions) (w : Worker) (now : Nat)
    (resolve : Nat → Option Nat) (s : List Job)
    (h : ∃ b ∈ s, claimableB opts now b = true) :
    ∃ v s' i b, getOp opts w now resolve s = (some v, s') ∧
      s[i]? = some b ∧ claimableB opts now b = true ∧
      (∀ j ∈ s, claimableB opts now j = true → b.createdAt ≤ j.createdAt) ∧
      s' = s.set i (applyClaim opts w now b) ∧
      (applyClaim opts w now b).blockedUntil = now + opts.blockDuration ∧
      (applyClaim opts w now b).workerId = some w.workerId ∧
      (applyClaim opts w now b).workerHostname = some w.workerHostname ∧
      (applyClaim opts w now b).retries = b.retries + 1 ∧
      v = ⟨b.mId, resolve b.payload, now + opts.blockDuration, b.done⟩ ∧
      v.done = false := by
  obtain ⟨v, s', i, b, h1, h2, h3, h4, h5, h6⟩ :=
    getOp_some_spec (w := w) (q := resolve) h
  refine ⟨v, s', i, b, h1, h2, h3, h4, h5, rfl, rfl, rfl, rfl, h6, ?_⟩
  rw [h6]
  exact ((claimableB_iff opts now b).mp h3).2.2

theorem get_claims_oldest_and_blocks_witness :
    (∃ b ∈ ([⟨1, 10, 5, 0, none, none, 0, false, none⟩,
             ⟨2, 11, 3, 0, none, none, 0, false, none⟩] : List Job),
        claimableB ⟨30000, 5⟩ 10 b = true) ∧
    (∃ v s' i b, getOp ⟨30000, 5⟩ ⟨"w", "hw"⟩ 10 (fun _ => none)
        [⟨1, 10, 5, 0, none, none, 0, false, none⟩,
         ⟨2, 11, 3, 0, none, none, 0, false, none⟩] = (some v, s') ∧
      ([⟨1, 10, 5, 0, none, none, 0, false, none⟩,
        ⟨2, 11, 3, 0, none, none, 0, false, none⟩] : List Job)[i]? = some b ∧
      claimableB ⟨30000, 5⟩ 10 b = true ∧
      (∀ j ∈ ([⟨1, 10, 5, 0, none, none, 0, false, none⟩,
               ⟨2, 11, 3, 0, none, none, 0, false, none⟩] : List Job),
        claimableB ⟨30000, 5⟩ 10 j = true → b.createdAt ≤ j.createdAt) ∧
      s' = ([⟨1, 10, 5, 0, none, none, 0, false, none⟩,
             ⟨2, 11, 3, 0, none, none, 0, false, none⟩] : List Job).set i
              (applyClaim ⟨30000, 5⟩ ⟨"w", "hw"⟩ 10 b) ∧
      (applyClaim ⟨30000, 5⟩ ⟨"w", "hw"⟩ 10 b).blockedUntil = 10 + (30000 : Nat) ∧
      (applyClaim ⟨30000, 5⟩ ⟨"w", "hw"⟩ 10 b).workerId = some "w" ∧
      (applyClaim ⟨30000, 5⟩ ⟨"w", "hw"⟩ 10 b).workerHostname = some "hw" ∧
      (applyClaim ⟨30000, 5⟩ ⟨"w", "hw"⟩ 10 b).retries = b.retries + 1 ∧
      v = ⟨b.mId, (fun _ => (none : Option Nat)) b.payload, 10 + (30000 : Nat), b.done⟩ ∧
      v.done = false) :=
  ⟨by decide,
    get_claims_oldest_and_blocks ⟨30000, 5⟩ ⟨"w", "hw"⟩ 10 (fun _ => none)
      [⟨1, 10, 5, 0, none, none, 0, false, none⟩,
       ⟨2, 11, 3, 0, none, none, 0, false, none⟩] (by decide)⟩

/-- C3 counterexample: a job whose `retries` has exactly reached
`maxRetries` (5 = 5) is still claimed by `get()` — the filter is
`retries: {$lte: maxRetries}` — so "never claims that job again once the
count has reached maxRetries" is false; the claim is pushed to
`maxRetries + 1`. -/
theorem get_claims_job_at_exactly_maxRetries :
    (Job.retries ⟨1, 10, 0, 0, none, none, 5, false, none⟩
        = QueueOptions.maxRetries ⟨30000, 5⟩) ∧
    ((getOp ⟨30000, 5⟩ ⟨"w", "hw"⟩ 10 (fun _ => none)
        [⟨1, 10, 0, 0, none, none, 5, false, none⟩]).1.map GetView.id = some 1) ∧
    ((getOp ⟨30000, 5⟩ ⟨"w", "hw"⟩ 10 (fun _ => none)
        [⟨1, 10, 0, 0, none, none, 5, false, none⟩]).2.map Job.retries = [6]) := by
  decide

/-- C3 (amended): a job is returned by `get()` only while its `retries` is
at most `maxRetries`; exclusion starts only once `retries` strictly
exceeds `maxRetries` (so a job at exactly `maxRetries` is claimed one
final time), and a job whose `retries` exceeds `maxRetries` is never the
claimed job. -/
theorem get_returns_only_retries_le_max (opts : QueueOptions) (w : Worker)
    (now : Nat) (resolve : Nat → Option Nat) (s s' : List Job) (v : GetView)
    (h : getOp opts w now resolve s = (some v, s')) :
    ∃ b ∈ s, b.mId = v.id ∧ b.retries ≤ opts.maxRetries ∧ b.done = false ∧
      b.blockedUntil < now := by
  obtain ⟨b, hb, hcb, hv⟩ := getOp_some_inv h
  obtain ⟨h1, h2, h3⟩ := (claimableB_iff opts now b).mp hcb
  exact ⟨b, hb, by rw [hv], h2, h3, h1⟩

theorem get_returns_only_retries_le_max_witness :
    ∃ b ∈ ([⟨1, 10, 0, 0, none, none, 0, false, none⟩] : List Job),
      b.mId = GetView.id ⟨1, none, 30010, false⟩ ∧
      b.retries ≤ QueueOptions.maxRetries ⟨30000, 5⟩ ∧ b.done = false ∧
      b.blockedUntil < 10 :=
  get_returns_only_retries_le_max ⟨30000, 5⟩ ⟨"w", "hw"⟩ 10 (fun _ => none)
    [⟨1, 10, 0, 0, none, none, 0, false, none⟩]
    [⟨1, 10, 0, 30010, some "w", some "hw", 1, false, none⟩]
    ⟨1, none, 30010, false⟩ (by decide)

/-- C4 (code bug): the schema writes `default: Date.now()`, so the
`blockedUntil` default is the one timestamp at which the schema was first
constructed, not the job's own creation time: a job added at time 100
against a schema built at time 0 gets `blockedUntil = 0`, while
`createdAt = 100`. -/
theorem add_blockedUntil_is_schema_construction_time :
    ((jobSchemaFactory none 0 "queue" "ObjectId").1.schema.blockedUntilDefault = 0) ∧
    ((addOp (jobSchemaFactory none 0 "queue" "ObjectId").1.schema 100 1
        (some (some 7)) []).2.map Job.blockedUntil = [0]) ∧
    ((addOp (jobSchemaFactory none 0 "queue" "ObjectId").1.schema 100 1
        (some (some 7)) []).2.map Job.createdAt = [100]) ∧
    (0 : Nat) ≠ 100 := by
  decide

/-- C5: `ack` sets `done = true` unconditionally, so it is idempotent:
acking twice succeeds both times with `done = true`; and `error` called
after `ack` sets the error message while `done` remains true. -/
theorem ack_idempotent_and_error_after_ack (jobId : Nat) (msg : String)
    (s : List Job) (h : ∃ b ∈ s, b.mId = jobId) :
    ∃ v1 s1, ackOp jobId s = (Except.ok v1, s1) ∧ v1.done = true ∧
      (∃ v2 s2, ackOp jobId s1 = (Except.ok v2, s2) ∧ v2.done = true) ∧
      (∃ ve se, errorOp jobId msg s1 = (Except.ok ve, se) ∧ ve.done = true ∧
        ve.error = some msg ∧ ∃ b' ∈ se, b'.mId = jobId ∧ b'.done = true ∧
          b'.error = some msg) := by
  obtain ⟨v1, s1, hA, hd1, b1, hb1, hid1, -⟩ := ackOp_found h
  obtain ⟨v2, s2, hA2, hd2, -⟩ := ackOp_found ⟨b1, hb1, hid1⟩
  obtain ⟨ve, se, hE, hde, herr, hbe⟩ := errorOp_found (m := msg) ⟨b1, hb1, hid1⟩
  exact ⟨v1, s1, hA, hd1, ⟨v2, s2, hA2, hd2⟩, ⟨ve, se, hE, hde, herr, hbe⟩⟩

theorem ack_idempotent_and_error_after_ack_witness :
    ∃ v1 s1, ackOp 1 [⟨1, 10, 0, 0, none, none, 0, false, none⟩]
        = (Except.ok v1, s1) ∧ v1.done = true ∧
      (∃ v2 s2, ackOp 1 s1 = (Except.ok v2, s2) ∧ v2.done = true) ∧
      (∃ ve se, errorOp 1 "boom" s1 = (Except.ok ve, se) ∧ ve.done = true ∧
        ve.error = some "boom" ∧ ∃ b' ∈ se, b'.mId = 1 ∧ b'.done = true ∧
          b'.error = some "boom") :=
  ack_idempotent_and_error_after_ack 1 "boom"
    [⟨1, 10, 0, 0, none, none, 0, false, none⟩] (by decide)

/-- C6: `ack` and `error` on an id that matches no stored job fail with
exactly "Job id invalid, job not found." and leave the store unchanged. -/
theorem ack_error_unknown_id (jobId : Nat) (msg : String) (s : List Job)
    (h : ∀ b ∈ s, b.mId ≠ jobId) :
    ackOp jobId s = (Except.error "Job id invalid, job not found.", s) ∧
    errorOp jobId msg s = (Except.error "Job id invalid, job not found.", s) := by
  have hall : ∀ j ∈ s, (j.mId == jobId) = false := fun j hj => by simp [h j hj]
  constructor
  · rw [ackOp, claimFirst_of_all_false hall]
  · rw [errorOp, claimFirst_of_all_false hall]

theorem ack_error_unknown_id_witness :
    (∀ b ∈ ([⟨1, 10, 0, 0, none, none, 0, false, none⟩] : List Job), b.mId ≠ 2) ∧
    (ackOp 2 [⟨1, 10, 0, 0, none, none, 0, false, none⟩]
        = (Except.error "Job id invalid, job not found.",
           [⟨1, 10, 0, 0, none, none, 0, false, none⟩]) ∧
     errorOp 2 "boom" [⟨1, 10, 0, 0, none, none, 0, false, none⟩]
        = (Except.error "Job id invalid, job not found.",
           [⟨1, 10, 0, 0, none, none, 0, false, none⟩])) :=
  ⟨by decide,
    ack_error_unknown_id 2 "boom" [⟨1, 10, 0, 0, none, none, 0, false, none⟩]
      (by decide)⟩

/-- C7: `add` fails with "Payload missing." on an absent payload and
"Payload is no valid Mongoose document." on a payload without an `_id`,
leaving the store unchanged in both cases; on success it inserts exactly
one job whose `payload` is the payload's identity reference and returns
the new job's identifier. -/
theorem add_payload_validation (schema : SchemaDef) (now newId pid : Nat)
    (s : List Job) :
    addOp schema now newId none s = (Except.error "Payload missing.", s) ∧
    addOp schema now newId (some none) s
        = (Except.error "Payload is no valid Mongoose document.", s) ∧
    addOp schema now newId (some (some pid)) s
        = (Except.ok newId, s ++ [newJob schema now newId pid]) ∧
    (newJob schema now newId pid).payload = pid ∧
    (newJob schema now newId pid).mId = newId ∧
    (newJob schema now newId pid).done = false ∧
    (newJob schema now newId pid).retries = 0 :=
  ⟨rfl, rfl, rfl, rfl, rfl, rfl, rfl⟩

/-- C8: `clean()` deletes exactly the jobs with `done = true` or
`retries > maxRetries`: a job is in the cleaned store iff it was in the
store, is not done, and has `retries ≤ maxRetries`; the surviving jobs are
kept unchanged and in order (sublist). -/
theorem clean_removes_done_or_over_retries (opts : QueueOptions) (s : List Job) :
    (∀ j : Job, j ∈ cleanOp opts s ↔
      (j ∈ s ∧ ¬(j.done = true ∨ opts.maxRetries < j.retries))) ∧
    (cleanOp opts s).Sublist s := by
  constructor
  · intro j
    rw [cleanOp, List.mem_filter]
    constructor
    · rintro ⟨hj, hcond⟩
      simp only [Bool.not_eq_true', Bool.or_eq_false_iff,
        decide_eq_false_iff_not] at hcond
      rw [not_or]
      exact ⟨hj, by simp [hcond.1], hcond.2⟩
    · rintro ⟨hj, hcond⟩
      rw [not_or] at hcond
      refine ⟨hj, ?_⟩
      simp only [Bool.not_eq_true', Bool.or_eq_false_iff,
        decide_eq_false_iff_not]
      exact ⟨by simp [hcond.1], hcond.2⟩
  · exact List.filter_sublist s

/-- C9: When no claimable job exists, `get()` returns empty with no error
(the `(none, _)` outcome models `cb(null, null)`, which is disjoint from
every error outcome) and the store is left unchanged. -/
theorem get_empty_when_no_claimable (opts : QueueOptions) (w : Worker)
    (now : Nat) (resolve : Nat → Option Nat) (s : List Job)
    (h : ∀ j ∈ s, claimableB opts now j = false) :
    getOp opts w now resolve s = (none, s) :=
  getOp_of_no_claimable h

theorem get_empty_when_no_claimable_witness :
    (∀ j ∈ ([⟨1, 10, 0, 0, none, none, 0, true, none⟩] : List Job),
      claimableB ⟨30000, 5⟩ 10 j = false) ∧
    getOp ⟨30000, 5⟩ ⟨"w", "hw"⟩ 10 (fun _ => none)
        [⟨1, 10, 0, 0, none, none, 0, true, none⟩]
      = (none, [⟨1, 10, 0, 0, none, none, 0, true, none⟩]) :=
  ⟨by decide,
    get_empty_when_no_claimable ⟨30000, 5⟩ ⟨"w", "hw"⟩ 10 (fun _ => none)
      [⟨1, 10, 0, 0, none, none, 0, true, none⟩] (by decide)⟩

/-- C10: the schema factory caches the schema in a module-level variable on
first invocation: every later invocation (e.g. a second `MongooseQueue`
constructed in the same process) returns a model over the very schema of
the first call, so its own `payloadRefType` argument is ignored and the
payload reference type is the one supplied to the first call. -/
theorem schema_factory_caches_first_refType (t1 t2 : Nat)
    (c1 c2 r1 r2 : String) :
    ((jobSchemaFactory none t1 c1 r1).1.schema.payloadRefType = r1) ∧
    ((jobSchemaFactory (jobSchemaFactory none t1 c1 r1).2 t2 c2 r2).1.schema
        = (jobSchemaFactory none t1 c1 r1).1.schema) ∧
    ((jobSchemaFactory (jobSchemaFactory none t1 c1 r1).2 t2 c2 r2).1.schema.payloadRefType
        = r1) :=
  ⟨rfl, rfl, rfl⟩
